import Mathlib

/-!
Shallow embedding of the retrieval-and-grounding core of the
`dietcokelovers` notes application (backend route handlers).

Strings are modelled as `List Char`.  The embedded functions follow the
JavaScript source line by line:

* `tokenize`, `scoreChunk`   — the lexical tokenizer / scorer
  (identical in both backend files);
* `computeConfidence`        — the stricter threshold variant;
* `computeConfidenceLoose`   — the looser threshold variant of the second
  backend file;
* `chunkText`                — the paragraph chunker (identical in both files);
* `topChunks`                — the chat handler's chunking / scoring / top-5
  selection;
* `finalizeChat`, `renderReply` — the chat handler's deterministic
  post-processing of the (already parsed) generative output;
* `studyTemplated`           — the templated (retrieval-only) study-set
  generator of the second backend file.

Loops that advance by `drop` are written with an explicit fuel argument
(initialised to the input length, which always suffices) so that every
definition reduces in the kernel.
-/

/-- The whitespace class used by the source's regexes (`\s`), restricted to
the ASCII whitespace characters that can actually occur after the
tokenizer's normalisation and in ordinary note text. -/
def isSpaceJS (c : Char) : Bool :=
  c = ' ' || c = '\t' || c = '\n' || c = '\r' || c = '\x0b' || c = '\x0c'

/-- The non-whitespace content of a string: all characters that are not
whitespace, in order. -/
def filterNW (l : List Char) : List Char :=
  l.filter (fun c => !isSpaceJS c)

/-- One character of `text.toLowerCase().replace(/[^a-z0-9\s]/g, ' ')`:
lower-case the character; keep it if it is now a lower-case letter, a digit
or whitespace, otherwise replace it by a space. -/
def normChar (c : Char) : Char :=
  let l := c.toLower
  if ('a' ≤ l && l ≤ 'z') || ('0' ≤ l && l ≤ '9') || isSpaceJS l then l else ' '

/-- `split(/\s+/)` modelled by splitting at every whitespace character
(adjacent separators produce empty pieces, exactly the pieces that
`.filter(Boolean)` later discards). -/
def splitWsGo : List Char → List Char → List (List Char)
  | [], acc => [acc.reverse]
  | c :: rest, acc =>
    if isSpaceJS c then acc.reverse :: splitWsGo rest []
    else splitWsGo rest (c :: acc)

/-- `tokenize(text)`: lower-case, replace every character outside
`[a-z0-9\s]` by a space, split on whitespace and drop empty tokens. -/
def tokenize (text : List Char) : List (List Char) :=
  (splitWsGo (text.map normChar) []).filter (fun t => !t.isEmpty)

/-- `scoreChunk(question, chunkTextValue)`: build the set of query tokens,
then walk the chunk's token sequence and add 1 for every position whose
token is a member of that set.  (Membership in the JS `Set` built from the
token list coincides with membership in the list.) -/
def scoreChunk (question chunk : List Char) : Nat :=
  let qTokens := tokenize question
  (tokenize chunk).foldl (fun score t => if qTokens.contains t then score + 1 else score) 0

/-- The confidence labels. -/
inductive Confidence where
  | low
  | medium
  | high
deriving DecidableEq

/-- Numeric rank of a confidence label, for monotonicity statements. -/
def confRank : Confidence → Nat
  | .low => 0
  | .medium => 1
  | .high => 2

/-- `computeConfidence(topScore)` of the first backend file (stricter
thresholds 5 / 2 / 1). -/
def computeConfidence (topScore : Int) : Confidence :=
  if topScore ≥ 5 then .high
  else if topScore ≥ 2 then .medium
  else if topScore ≥ 1 then .low
  else .low

/-- `computeConfidence(topScore)` of the second backend file (looser
thresholds 20 / 8 / 3). -/
def computeConfidenceLoose (topScore : Int) : Confidence :=
  if topScore ≥ 20 then .high
  else if topScore ≥ 8 then .medium
  else if topScore ≥ 3 then .low
  else .low

/-- JavaScript `String.prototype.trim`: drop whitespace from both ends. -/
def trimJS (l : List Char) : List Char :=
  ((l.dropWhile isSpaceJS).reverse.dropWhile isSpaceJS).reverse

/-- Largest index of a `'\n'` in the list, if any (used to model the greedy
`\s*` of the paragraph-separator regex `\n\s*\n`). -/
def lastNLIdx : List Char → Option Nat
  | [] => none
  | c :: rest =>
    match lastNLIdx rest with
    | some j => some (j + 1)
    | none => if c = '\n' then some 0 else none

/-- `text.split(/\n\s*\n/)`: scan left to right; a separator match starts at
a `'\n'` and, by greediness with backtracking, extends through the following
whitespace run up to (and including) the last `'\n'` inside that run.  The
fuel argument (initialised to the text length, which always suffices) makes
the `drop`-advancing loop structurally recursive. -/
def splitParasGo (fuel : Nat) (l : List Char) (acc : List Char) : List (List Char) :=
  match fuel, l with
  | _, [] => [acc.reverse]
  | 0, l => [acc.reverse ++ l]
  | fuel + 1, c :: rest =>
    if c = '\n' then
      match lastNLIdx (rest.takeWhile isSpaceJS) with
      | some j => acc.reverse :: splitParasGo fuel (rest.drop (j + 1)) []
      | none => splitParasGo fuel rest (c :: acc)
    else splitParasGo fuel rest (c :: acc)

/-- The paragraph split of the chunker. -/
def splitParas (text : List Char) : List (List Char) :=
  splitParasGo text.length text []

/-- The hard-split `while` loop of the chunker: slice an over-long paragraph
into consecutive `maxChars`-wide pieces.  Fuel initialised to the paragraph
length always suffices when `maxChars > 0` (with `maxChars = 0` the source
loop would not terminate; the claims only concern `maxChars > 0`). -/
def sliceGo (fuel : Nat) (p : List Char) (maxChars : Nat) : List (List Char) :=
  match fuel with
  | 0 => []
  | fuel + 1 =>
    if p.isEmpty then [] else p.take maxChars :: sliceGo fuel (p.drop maxChars) maxChars

/-- The hard split of a single over-long paragraph. -/
def sliceSplit (p : List Char) (maxChars : Nat) : List (List Char) :=
  sliceGo p.length p maxChars

/-- The blank-line joiner `'\n\n'`. -/
def nl2 : List Char := ['\n', '\n']

/-- The paragraph-accumulation loop of `chunkText`: `current` is the running
buffer; a paragraph is appended to it while the joined length stays within
`maxChars`, otherwise the buffer is flushed and the paragraph either starts
a new buffer or (if itself over-long) is hard-split. -/
def chunkLoop (maxChars : Nat) : List (List Char) → List Char → List (List Char)
  | [], current => if current.isEmpty then [] else [current]
  | p :: rest, current =>
    let paragraph := trimJS p
    if paragraph.isEmpty then chunkLoop maxChars rest current
    else if (current ++ nl2 ++ paragraph).length ≤ maxChars then
      chunkLoop maxChars rest (if current.isEmpty then paragraph else current ++ nl2 ++ paragraph)
    else
      (if current.isEmpty then [] else [current]) ++
      (if paragraph.length ≤ maxChars then chunkLoop maxChars rest paragraph
       else sliceSplit paragraph maxChars ++ chunkLoop maxChars rest [])

/-- `chunkText(text, maxChars = 800)`. -/
def chunkText (text : List Char) (maxChars : Nat := 800) : List (List Char) :=
  if text.isEmpty then [] else chunkLoop maxChars (splitParas text) []

/-- A stored note: title and content.  JavaScript falsiness of a missing or
empty title is modelled by the empty list. -/
structure Note where
  title : List Char
  content : List Char
deriving DecidableEq

/-- `note.title || 'Untitled Note'`. -/
def noteTitleOf (n : Note) : List Char :=
  if n.title.isEmpty then "Untitled Note".toList else n.title

/-- A chunk tagged with its source note title and 1-based index, as pushed
by the chat handler's chunking loop. -/
structure TChunk where
  noteTitle : List Char
  chunkIndex : Nat
  text : List Char
deriving DecidableEq

/-- `noteChunks.forEach((text, idx) => chunks.push({noteTitle, chunkIndex: idx + 1, text}))`,
with `k` the number of chunks already consumed (so indices are `k+1`, `k+2`, ...). -/
def tagChunks (title : List Char) (k : Nat) : List (List Char) → List TChunk
  | [] => []
  | t :: rest => ⟨title, k + 1, t⟩ :: tagChunks title (k + 1) rest

/-- All tagged chunks of one note: `chunkText` run over
`` `${note.title || 'Untitled Note'}\n\n${note.content || ''}` ``. -/
def noteChunks (n : Note) : List TChunk :=
  tagChunks (noteTitleOf n) 0 (chunkText (noteTitleOf n ++ nl2 ++ n.content) 800)

/-- The chat handler's flat chunk list, in note order then chunk order. -/
def allChunks (notes : List Note) : List TChunk :=
  (notes.map noteChunks).flatten

/-- A scored chunk, as produced by `chunks.map(chunk => ({...chunk, score}))`. -/
structure SChunk where
  noteTitle : List Char
  chunkIndex : Nat
  text : List Char
  score : Nat
deriving DecidableEq

/-- Score every chunk against the query. -/
def scoredChunks (query : List Char) (notes : List Note) : List SChunk :=
  (allChunks notes).map (fun c => ⟨c.noteTitle, c.chunkIndex, c.text, scoreChunk query c.text⟩)

/-- Insertion step of a stable descending sort by score: insert before the
first element whose score is not larger.  It inserts strictly after every
earlier element with a strictly larger score and strictly before every later
element with an equal or smaller score, which is exactly the stable order
required of the source's `sort((a, b) => b.score - a.score)` (ECMAScript
`Array.prototype.sort` is stable, and any two stable sorts by the same
comparator agree). -/
def insertByScore (c : SChunk) : List SChunk → List SChunk
  | [] => [c]
  | d :: rest => if d.score ≤ c.score then c :: d :: rest else d :: insertByScore c rest

/-- Stable sort (non-increasing by score). -/
def sortByScoreDesc (l : List SChunk) : List SChunk :=
  l.foldr insertByScore []

/-- The chat handler's top-chunk selection: chunk all notes, and when at
least one chunk exists, score, stable-sort descending and take the first 5;
otherwise the selection stays empty. -/
def topChunks (query : List Char) (notes : List Note) : List SChunk :=
  if (allChunks notes).isEmpty then []
  else (sortByScoreDesc (scoredChunks query notes)).take 5

/-- One citation of the generative response schema. -/
structure Citation where
  id : List Char
  evidence_snippet : List Char
deriving DecidableEq

/-- A successfully parsed generative chat response (`spoken_answer`,
`citations`, `confidence`).  A missing or empty field is the empty list. -/
structure AiResponse where
  spoken_answer : List Char
  citations : List Citation
  confidence : List Char
deriving DecidableEq

/-- The refusal substring tested by the handler:
`` aiResponse.spoken_answer.includes(`Not found in your notes for`) ``. -/
def refusalMarker : List Char := "Not found in your notes for".toList

/-- JavaScript `String.prototype.includes`: some suffix of the haystack
starts with the needle. -/
def containsSub (hay sub : List Char) : Bool :=
  if sub.isPrefixOf hay then true
  else
    match hay with
    | [] => false
    | _ :: rest => containsSub rest sub

/-- One rendered evidence line: `` `- [${cit.id}] "${cit.evidence_snippet}"\n` ``. -/
def renderCitationLine (cit : Citation) : List Char :=
  "- [".toList ++ cit.id ++ "] \"".toList ++ cit.evidence_snippet ++ "\"\n".toList

/-- The handler's reply construction from a parsed response: short-circuit
verbatim on the refusal substring; otherwise append the Supporting Evidence
block when citations are present and trim the result. -/
def renderReply (r : AiResponse) : List Char :=
  if !r.spoken_answer.isEmpty && containsSub r.spoken_answer refusalMarker then
    r.spoken_answer
  else
    let base := r.spoken_answer
    let withEvidence :=
      if r.citations.isEmpty then base
      else base ++ "\n\n**Supporting Evidence:**\n".toList ++
        (r.citations.map renderCitationLine).flatten
    trimJS withEvidence

/-- The handler's outcome after the generative call returned: either a
normal JSON reply or an error response (the 500 branch of the outer catch,
never produced by the post-processing itself). -/
inductive ChatOutcome where
  | ok : List Char → ChatOutcome
  | errorStatus : Nat → List Char → ChatOutcome
deriving DecidableEq

/-- The fallback reply used when the generative output failed to parse. -/
def fallbackReply : List Char := "Failed to generate response correctly.".toList

/-- The deterministic post-processing of the chat handler, starting from the
result of `JSON.parse` wrapped in `try/catch` (`none` = the parse threw, so
`aiResponse` is `null`). -/
def finalizeChat (parsed : Option AiResponse) : ChatOutcome :=
  match parsed with
  | none => .ok fallbackReply
  | some r => .ok (renderReply r)

/-- A citation of a templated study item
(`{fileName: chunk.title, reference: 'chunk <index>'}`). -/
structure StudyCitation where
  fileName : List Char
  reference : List Char
deriving DecidableEq

/-- A templated multiple-choice question. -/
structure Mcq where
  mcqId : List Char
  question : List Char
  options : List (List Char)
  correctOption : List Char
  explanation : List Char
  citations : List StudyCitation
deriving DecidableEq

/-- A templated short-answer question. -/
structure Saq where
  saqId : List Char
  question : List Char
  modelAnswer : List Char
  citations : List StudyCitation
deriving DecidableEq

/-- The study handler's JSON response: the generated items, plus the
explanatory message of the no-notes / no-chunks short-circuits (empty when
absent). -/
structure StudyResponse where
  mcqs : List Mcq
  shortAnswers : List Saq
  message : List Char
deriving DecidableEq

/-- Decimal rendering of a chunk index, as interpolated by the templates. -/
def natStr (n : Nat) : List Char := (Nat.repr n).toList

/-- `snippetPreview(text, maxLen = 200)`. -/
def snippetPreview (text : List Char) (maxLen : Nat := 200) : List Char :=
  if text.isEmpty then []
  else if maxLen < text.length then text.take maxLen ++ "...".toList
  else text

/-- The templated MCQ built from pool chunk number `idx` (0-based). -/
def mkMcq (idx : Nat) (chunk : TChunk) : Mcq :=
  let preview := snippetPreview chunk.text
  { mcqId := "mcq-".toList ++ natStr (idx + 1)
    question := "According to your notes (note \"".toList ++ chunk.noteTitle ++
      "\"), which option best reflects the idea expressed in this excerpt?\n\n\"".toList ++
      preview ++ "\"".toList
    options :=
      [ "A. A statement that is consistent with this excerpt from your notes.".toList,
        "B. An idea that is unrelated to this excerpt.".toList,
        "C. A claim that contradicts this excerpt.".toList,
        "D. A topic that is not covered in your notes.".toList ]
    correctOption := "A".toList
    explanation :=
      "Option A is correct because it is defined to align with the provided excerpt from your notes.\n\n".toList ++
      "Supporting excerpt (note \"".toList ++ chunk.noteTitle ++ "\", chunk ".toList ++
      natStr chunk.chunkIndex ++ "):\n".toList ++ preview
    citations := [⟨chunk.noteTitle, "chunk ".toList ++ natStr chunk.chunkIndex⟩] }

/-- The templated short-answer question built from pool chunk `5 + idx`. -/
def mkSaq (idx : Nat) (chunk : TChunk) : Saq :=
  let preview := snippetPreview chunk.text
  { saqId := "sa-".toList ++ natStr (idx + 1)
    question := "Summarize the key idea from this excerpt (note \"".toList ++ chunk.noteTitle ++
      "\") in your own words:\n\n\"".toList ++ preview ++ "\"".toList
    modelAnswer :=
      "A good answer will capture the main idea expressed in the excerpt.\n\n".toList ++
      "Supporting excerpt (note \"".toList ++ chunk.noteTitle ++ "\", chunk ".toList ++
      natStr chunk.chunkIndex ++ "):\n".toList ++ preview
    citations := [⟨chunk.noteTitle, "chunk ".toList ++ natStr chunk.chunkIndex⟩] }

/-- `poolChunks.slice(0, 5).map((chunk, idx) => ...)`: build the MCQs,
threading the 0-based map index. -/
def buildMcqs (idx : Nat) : List TChunk → List Mcq
  | [] => []
  | c :: rest => mkMcq idx c :: buildMcqs (idx + 1) rest

/-- `poolChunks.slice(5, 8).map((chunk, idx) => ...)`: build the SAQs. -/
def buildSaqs (idx : Nat) : List TChunk → List Saq
  | [] => []
  | c :: rest => mkSaq idx c :: buildSaqs (idx + 1) rest

/-- The study short-circuit message. -/
def noNotesMsg : List Char := "Not found in your notes for this Subject.".toList

/-- The first 20 chunks across all notes, in note order. -/
def poolChunks (notes : List Note) : List TChunk :=
  (allChunks notes).take 20

/-- The templated (retrieval-only) study-set generator of the second backend
file: no notes or no chunks short-circuits to an empty result with a
message; otherwise 0-4 of the first 20 chunks become MCQs and 5-7 become
short-answer questions.  (The source chunk records also carry the unused
`noteId` field, dropped here.) -/
def studyTemplated (notes : List Note) : StudyResponse :=
  if notes.isEmpty then ⟨[], [], noNotesMsg⟩
  else if (allChunks notes).isEmpty then ⟨[], [], noNotesMsg⟩
  else
    let pc := poolChunks notes
    ⟨buildMcqs 0 (pc.take 5), buildSaqs 0 ((pc.drop 5).take 3), []⟩

/-- Spec-modelled scorer, following the spec's ScoredChunk sentence word for
word: the "count of query tokens present in the chunk, multiplicity ignored
— token SET intersection size": the cardinality of the intersection of the
chunk's token set with the query's token set. -/
def specSetIntersectionScore (question chunk : List Char) : Nat :=
  ((tokenize chunk).dedup.filter (fun t => (tokenize question).contains t)).length

/-- Concrete refusal response used to witness the short-circuit: it carries
a citation, which the short-circuit must not render. -/
def witnessRefusal : AiResponse :=
  ⟨"Not found in your notes for Math".toList,
    [⟨"1".toList, "snippet".toList⟩], "High".toList⟩

/-! ## Helper lemmas -/

theorem foldl_if_count {α : Type} (p : α → Bool) (l : List α) (n : Nat) :
    l.foldl (fun s t => if p t then s + 1 else s) n = n + (l.filter p).length := by
  induction l generalizing n with
  | nil => simp
  | cons a l ih =>
    by_cases h : p a
    · simp [List.foldl_cons, h, ih]
      omega
    · simp [List.foldl_cons, h, ih]

theorem scoreChunk_eq_filter_length (q c : List Char) :
    scoreChunk q c = ((tokenize c).filter (fun t => (tokenize q).contains t)).length := by
  unfold scoreChunk
  simpa using foldl_if_count (fun t => (tokenize q).contains t) (tokenize c) 0

theorem count_beq_inst (a : List Char) (l : List (List Char)) :
    @List.count _ instBEqOfDecidableEq a l = @List.count _ List.instBEq a l := by
  induction l with
  | nil => rfl
  | cons b l ih =>
    rw [@List.count_cons _ instBEqOfDecidableEq, @List.count_cons _ List.instBEq, ih]
    congr 1
    by_cases h : b = a
    · subst h
      simp
    · simp [h]

theorem isPrefixOf_of_append_isPrefixOf {a b l : List Char}
    (h : (a ++ b).isPrefixOf l = true) : a.isPrefixOf l = true := by
  rw [List.isPrefixOf_iff_prefix] at h ⊢
  exact (List.prefix_append a b).trans h

theorem containsSub_of_append {hay a b : List Char}
    (h : containsSub hay (a ++ b) = true) : containsSub hay a = true := by
  induction hay with
  | nil =>
    unfold containsSub at h
    split at h
    · rename_i hp
      unfold containsSub
      simp [isPrefixOf_of_append_isPrefixOf hp]
    · simp at h
  | cons x rest ih =>
    unfold containsSub at h
    split at h
    · rename_i hp
      unfold containsSub
      simp [isPrefixOf_of_append_isPrefixOf hp]
    · unfold containsSub
      split
      · rfl
      · exact ih h

theorem containsSub_ne_nil {hay sub : List Char} (h : containsSub hay sub = true)
    (hs : sub ≠ []) : hay ≠ [] := by
  intro he
  subst he
  unfold containsSub at h
  split at h
  · rename_i hp
    rw [List.isPrefixOf_iff_prefix] at hp
    exact hs (List.prefix_nil.mp hp)
  · simp at h

/-! ## Claim theorems: tokenizer / scorer / confidence -/

/-- C2: `scoreChunk(q, c)` counts the positions of the chunk's token
sequence (not deduplicated) whose token belongs to the set of query tokens;
consequently the score only depends on query-token membership (so it is
invariant under permutation and duplication of query tokens), and in
particular `scoreChunk "cat" "cat cat cat" = 3` while `scoreChunk "" c = 0`
for every chunk. -/
theorem scoreChunk_counts_chunk_positions (q c : List Char) :
    scoreChunk q c = ((tokenize c).filter (fun t => (tokenize q).contains t)).length
    ∧ (∀ q2, (∀ t, t ∈ tokenize q2 ↔ t ∈ tokenize q) → scoreChunk q2 c = scoreChunk q c)
    ∧ scoreChunk "cat".toList "cat cat cat".toList = 3
    ∧ scoreChunk [] c = 0 := by
  refine ⟨scoreChunk_eq_filter_length q c, ?_, by decide, ?_⟩
  · intro q2 hmem
    rw [scoreChunk_eq_filter_length, scoreChunk_eq_filter_length]
    congr 1
    refine List.filter_congr ?_
    intro t _
    have h2 : ((tokenize q2).contains t = true) ↔ ((tokenize q).contains t = true) := by
      rw [List.elem_iff, List.elem_iff]
      exact hmem t
    cases hq : (tokenize q2).contains t
    · cases hq' : (tokenize q).contains t
      · rfl
      · rw [h2.mpr hq'] at hq
        exact absurd hq (by simp)
    · exact (h2.mp hq).symm
  · rw [scoreChunk_eq_filter_length]
    have : (tokenize ([] : List Char)) = [] := by decide
    rw [this]
    simp [List.filter_eq_nil_iff]

/-- C3 counterexample: the relevance score of the chunk `"cat cat cat"`
against the query `"cat"` is 3 (one per matching position), not the
set-intersection cardinality 1, so the score is not the cardinality of the
intersection of the query and chunk token sets. -/
theorem scoreChunk_ne_set_intersection :
    scoreChunk "cat".toList "cat cat cat".toList ≠
      specSetIntersectionScore "cat".toList "cat cat cat".toList := by
  decide

/-- C3 amended: the relevance score is the multiplicity-weighted
intersection — the sum, over the distinct chunk tokens that belong to the
query token set, of the token's repetition count in the chunk (it reduces
to the plain set-intersection cardinality only when no matching chunk token
repeats). -/
theorem scoreChunk_weighted_intersection (q c : List Char) :
    scoreChunk q c =
      (((tokenize c).dedup.filter (fun t => (tokenize q).contains t)).map
        (fun t => (tokenize c).count t)).sum := by
  rw [scoreChunk_eq_filter_length, ← List.countP_eq_length_filter]
  refine (List.sum_map_count_dedup_filter_eq_countP
    (fun t => (tokenize q).contains t) (tokenize c)).symm.trans ?_
  refine congrArg List.sum (List.map_congr_left ?_)
  intro a _
  exact count_beq_inst a (tokenize c)

/-- C8: both confidence variants found in the source implement one of the
two documented threshold policies — the first backend file the stricter one
(High iff score ≥ 5, Medium iff 2 ≤ score < 5, Low otherwise), the second
the looser one (High iff score ≥ 20, Medium iff 8 ≤ score < 20, Low
otherwise) — and both are monotone non-decreasing in the score. -/
theorem computeConfidence_policies (s : Int) :
    (computeConfidence s = .high ↔ 5 ≤ s)
    ∧ (computeConfidence s = .medium ↔ 2 ≤ s ∧ s < 5)
    ∧ (computeConfidence s = .low ↔ s < 2)
    ∧ (computeConfidenceLoose s = .high ↔ 20 ≤ s)
    ∧ (computeConfidenceLoose s = .medium ↔ 8 ≤ s ∧ s < 20)
    ∧ (computeConfidenceLoose s = .low ↔ s < 8)
    ∧ (∀ t, s ≤ t → confRank (computeConfidence s) ≤ confRank (computeConfidence t))
    ∧ (∀ t, s ≤ t → confRank (computeConfidenceLoose s) ≤ confRank (computeConfidenceLoose t)) := by
  refine ⟨?_, ?_, ?_, ?_, ?_, ?_, ?_, ?_⟩
  all_goals
    first
    | (unfold computeConfidence
       split_ifs <;> simp <;> omega)
    | (unfold computeConfidenceLoose
       split_ifs <;> simp <;> omega)
    | (intro t ht
       unfold computeConfidence
       split_ifs <;> simp [confRank] <;> omega)
    | (intro t ht
       unfold computeConfidenceLoose
       split_ifs <;> simp [confRank] <;> omega)

/-! ## Claim theorems: chat contract enforcer -/

/-- C7: when the generative output fails to parse as JSON (`parsed = none`),
the handler's post-processing returns the fallback reply
"Failed to generate response correctly." as a normal chat response; and for
every parse outcome the post-processing produces a normal reply, never an
error status. -/
theorem chat_parse_failure_fallback :
    finalizeChat none = ChatOutcome.ok ("Failed to generate response correctly.".toList)
    ∧ ∀ p : Option AiResponse, ∃ reply, finalizeChat p = ChatOutcome.ok reply := by
  refine ⟨rfl, ?_⟩
  intro p
  cases p with
  | none => exact ⟨fallbackReply, rfl⟩
  | some r => exact ⟨renderReply r, rfl⟩

/-- C1: a successfully parsed response whose `spoken_answer` contains the
refusal string "Not found in your notes for " followed by a subject name is
returned verbatim: no Supporting Evidence block is appended and no citation
is rendered. -/
theorem chat_refusal_short_circuit (r : AiResponse) (subject : List Char)
    (h : containsSub r.spoken_answer (refusalMarker ++ subject) = true) :
    finalizeChat (some r) = ChatOutcome.ok r.spoken_answer := by
  have hc : containsSub r.spoken_answer refusalMarker = true := containsSub_of_append h
  have hne : r.spoken_answer ≠ [] := by
    refine containsSub_ne_nil h ?_
    simp [refusalMarker]
  have hemp : r.spoken_answer.isEmpty = false := by
    cases he : r.spoken_answer.isEmpty
    · rfl
    · exact absurd (List.isEmpty_iff.mp he) hne
  show ChatOutcome.ok (renderReply r) = ChatOutcome.ok r.spoken_answer
  unfold renderReply
  rw [hemp, hc]
  rfl

theorem chat_refusal_short_circuit_witness :
    containsSub witnessRefusal.spoken_answer (refusalMarker ++ " Math".toList) = true
    ∧ finalizeChat (some witnessRefusal) = ChatOutcome.ok witnessRefusal.spoken_answer :=
  ⟨by decide, chat_refusal_short_circuit witnessRefusal (" Math".toList) (by decide)⟩

/-! ## Helper lemmas: chunker -/

theorem sliceGo_mem_length {fuel : Nat} {p : List Char} {m : Nat} :
    ∀ ch ∈ sliceGo fuel p m, ch.length ≤ m := by
  induction fuel generalizing p with
  | zero => intro ch hch; simp [sliceGo] at hch
  | succ fuel ih =>
    intro ch hch
    unfold sliceGo at hch
    split at hch
    · simp at hch
    · rcases List.mem_cons.mp hch with h | h
      · subst h
        exact List.length_take_le m p
      · exact ih ch h

theorem sliceGo_flatten {m : Nat} (hm : 0 < m) :
    ∀ {fuel : Nat} {p : List Char}, p.length ≤ fuel → (sliceGo fuel p m).flatten = p := by
  intro fuel
  induction fuel with
  | zero =>
    intro p hf
    have hp : p = [] := List.length_eq_zero.mp (Nat.le_zero.mp hf)
    subst hp
    rfl
  | succ fuel ih =>
    intro p hf
    unfold sliceGo
    split
    · rename_i h
      rw [List.isEmpty_iff.mp h]
      rfl
    · rename_i h
      have hne : p ≠ [] := by
        intro he
        rw [he] at h
        simp at h
      have hd : (p.drop m).length ≤ fuel := by
        rw [List.length_drop]
        have : 0 < p.length := List.length_pos.mpr hne
        omega
      rw [List.flatten_cons, ih hd, List.take_append_drop]

theorem filterNW_append (a b : List Char) :
    filterNW (a ++ b) = filterNW a ++ filterNW b := by
  simp [filterNW]

theorem filterNW_eq_nil_of_ws {l : List Char} (h : ∀ c ∈ l, isSpaceJS c = true) :
    filterNW l = [] := by
  rw [filterNW, List.filter_eq_nil_iff]
  intro c hc
  simp [h c hc]

theorem ws_of_filterNW_eq_nil {l : List Char} (h : filterNW l = []) :
    ∀ c ∈ l, isSpaceJS c = true := by
  intro c hc
  have := List.filter_eq_nil_iff.mp h c hc
  simpa using this

theorem filterNW_dropWhile (l : List Char) :
    filterNW (l.dropWhile isSpaceJS) = filterNW l := by
  conv_rhs => rw [← List.takeWhile_append_dropWhile (p := isSpaceJS) (l := l)]
  rw [filterNW_append, filterNW_eq_nil_of_ws (fun c hc => List.mem_takeWhile_imp hc)]
  simp

theorem filterNW_reverse (l : List Char) : filterNW l.reverse = (filterNW l).reverse := by
  simp [filterNW]

theorem filterNW_trimJS (l : List Char) : filterNW (trimJS l) = filterNW l := by
  unfold trimJS
  rw [filterNW_reverse, filterNW_dropWhile, filterNW_reverse, List.reverse_reverse,
    filterNW_dropWhile]

theorem trimJS_eq_nil_of_filterNW {l : List Char} (h : filterNW l = []) : trimJS l = [] := by
  unfold trimJS
  have h1 : l.dropWhile isSpaceJS = [] := by
    rw [List.dropWhile_eq_nil_iff]
    intro a ha
    exact ws_of_filterNW_eq_nil h a ha
  rw [h1]
  rfl

theorem lastNLIdx_lt {l : List Char} {j : Nat} (h : lastNLIdx l = some j) : j < l.length := by
  induction l generalizing j with
  | nil => simp [lastNLIdx] at h
  | cons c rest ih =>
    unfold lastNLIdx at h
    cases hr : lastNLIdx rest with
    | some j2 =>
      rw [hr] at h
      have hj : j2 + 1 = j := Option.some.inj h
      have h2 := ih hr
      simp only [List.length_cons]
      omega
    | none =>
      rw [hr] at h
      by_cases hcnl : c = '\n'
      · rw [if_pos hcnl] at h
        have hj : (0 : Nat) = j := Option.some.inj h
        simp only [List.length_cons]
        omega
      · rw [if_neg hcnl] at h
        exact absurd h (by simp)

theorem splitParasGo_flatten :
    ∀ (fuel : Nat) (l acc : List Char), l.length ≤ fuel →
      filterNW ((splitParasGo fuel l acc).flatten) = filterNW (acc.reverse ++ l) := by
  intro fuel
  induction fuel with
  | zero =>
    intro l acc hf
    have hl : l = [] := List.length_eq_zero.mp (Nat.le_zero.mp hf)
    subst hl
    simp [splitParasGo]
  | succ fuel ih =>
    intro l acc hf
    cases l with
    | nil => simp [splitParasGo]
    | cons c rest =>
      have hrest : rest.length ≤ fuel := by
        simp [List.length_cons] at hf
        omega
      by_cases hc : c = '\n'
      · rw [show splitParasGo (fuel + 1) (c :: rest) acc =
            (if c = '\n' then
              match lastNLIdx (rest.takeWhile isSpaceJS) with
              | some j => acc.reverse :: splitParasGo fuel (rest.drop (j + 1)) []
              | none => splitParasGo fuel rest (c :: acc)
            else splitParasGo fuel rest (c :: acc)) from rfl]
        rw [if_pos hc]
        cases hnl : lastNLIdx (rest.takeWhile isSpaceJS) with
        | some j =>
          have hj : j < (rest.takeWhile isSpaceJS).length := lastNLIdx_lt hnl
          have hlen : (rest.drop (j + 1)).length ≤ fuel := by
            rw [List.length_drop]
            omega
          rw [List.flatten_cons, filterNW_append, ih _ _ hlen]
          simp only [List.reverse_nil, List.nil_append]
          rw [filterNW_append]
          congr 1
          have hcs : filterNW (c :: rest) = filterNW rest := by
            subst hc
            simp [filterNW, isSpaceJS]
          rw [hcs]
          conv_rhs => rw [← List.take_append_drop (j + 1) rest]
          rw [filterNW_append]
          have htk : filterNW (rest.take (j + 1)) = [] := by
            apply filterNW_eq_nil_of_ws
            intro a ha
            have h1 : rest.take (j + 1) = (rest.takeWhile isSpaceJS).take (j + 1) := by
              conv_lhs => rw [← List.takeWhile_append_dropWhile (p := isSpaceJS) (l := rest)]
              exact List.take_append_of_le_length (by omega)
            rw [h1] at ha
            exact List.mem_takeWhile_imp (List.mem_of_mem_take ha)
          rw [htk, List.nil_append]
        | none =>
          refine (ih rest (c :: acc) hrest).trans (congrArg filterNW ?_)
          simp
      · rw [show splitParasGo (fuel + 1) (c :: rest) acc =
            (if c = '\n' then
              match lastNLIdx (rest.takeWhile isSpaceJS) with
              | some j => acc.reverse :: splitParasGo fuel (rest.drop (j + 1)) []
              | none => splitParasGo fuel rest (c :: acc)
            else splitParasGo fuel rest (c :: acc)) from rfl]
        rw [if_neg hc]
        refine (ih rest (c :: acc) hrest).trans (congrArg filterNW ?_)
        simp

theorem splitParas_flatten (text : List Char) :
    filterNW ((splitParas text).flatten) = filterNW text := by
  unfold splitParas
  simpa using splitParasGo_flatten text.length text [] (le_refl _)

theorem chunkLoop_mem_length (m : Nat) :
    ∀ (paras : List (List Char)) (current : List Char), current.length ≤ m →
      ∀ ch ∈ chunkLoop m paras current, ch.length ≤ m := by
  intro paras
  induction paras with
  | nil =>
    intro current hc ch hch
    unfold chunkLoop at hch
    split at hch
    · simp at hch
    · rw [List.mem_singleton] at hch
      subst hch
      exact hc
  | cons p rest ih =>
    intro current hc ch hch
    unfold chunkLoop at hch
    by_cases h1 : (trimJS p).isEmpty
    · rw [if_pos h1] at hch
      exact ih current hc ch hch
    · rw [if_neg h1] at hch
      by_cases h2 : (current ++ nl2 ++ trimJS p).length ≤ m
      · rw [if_pos h2] at hch
        have hlen : (if current.isEmpty = true then trimJS p
            else current ++ nl2 ++ trimJS p).length ≤ m := by
          split
          · simp only [List.length_append] at h2
            simp only [nl2] at h2
            omega
          · exact h2
        exact ih _ hlen ch hch
      · rw [if_neg h2] at hch
        rcases List.mem_append.mp hch with h3 | h3
        · have : ch = current := by
            by_cases h4 : current.isEmpty
            · rw [if_pos h4] at h3
              simp at h3
            · rw [if_neg h4] at h3
              exact List.mem_singleton.mp h3
          subst this
          exact hc
        · by_cases h4 : (trimJS p).length ≤ m
          · rw [if_pos h4] at h3
            exact ih _ h4 ch h3
          · rw [if_neg h4] at h3
            rcases List.mem_append.mp h3 with h5 | h5
            · exact sliceGo_mem_length ch h5
            · exact ih [] (Nat.zero_le m) ch h5

theorem chunkLoop_flatten (m : Nat) (hm : 0 < m) :
    ∀ (paras : List (List Char)) (current : List Char),
      filterNW ((chunkLoop m paras current).flatten) = filterNW (current ++ paras.flatten) := by
  intro paras
  induction paras with
  | nil =>
    intro current
    unfold chunkLoop
    split
    · rename_i h
      rw [List.isEmpty_iff.mp h]
      rfl
    · simp
  | cons p rest ih =>
    intro current
    unfold chunkLoop
    have hgoal : filterNW (current ++ (p :: rest).flatten) =
        filterNW current ++ filterNW p ++ filterNW rest.flatten := by
      rw [List.flatten_cons, filterNW_append, filterNW_append, List.append_assoc]
    by_cases h1 : (trimJS p).isEmpty
    · rw [if_pos h1]
      have hp : filterNW p = [] := by
        have h2 : filterNW (trimJS p) = [] := by
          rw [List.isEmpty_iff.mp h1]
          rfl
        rw [← filterNW_trimJS]
        exact h2
      rw [ih current, hgoal, hp]
      rw [filterNW_append, List.append_nil]
    · rw [if_neg h1]
      by_cases h2 : (current ++ nl2 ++ trimJS p).length ≤ m
      · rw [if_pos h2, ih, hgoal]
        split
        · rename_i h3
          rw [List.isEmpty_iff.mp h3]
          rw [filterNW_append, filterNW_trimJS]
          rfl
        · rw [filterNW_append, filterNW_append, filterNW_append]
          have hnl : filterNW nl2 = [] := by decide
          rw [hnl, List.append_nil, filterNW_trimJS]
      · rw [if_neg h2]
        rw [List.flatten_append, filterNW_append, hgoal]
        have hpush : filterNW (if current.isEmpty = true then
            ([] : List (List Char)) else [current]).flatten = filterNW current := by
          split
          · rename_i h3
            rw [List.isEmpty_iff.mp h3]
            rfl
          · simp
        rw [hpush]
        by_cases h4 : (trimJS p).length ≤ m
        · rw [if_pos h4, ih, filterNW_append, filterNW_trimJS, List.append_assoc]
        · rw [if_neg h4]
          rw [List.flatten_append, filterNW_append]
          unfold sliceSplit
          rw [sliceGo_flatten hm (le_refl _), ih, List.nil_append, filterNW_trimJS,
            List.append_assoc]

theorem chunkLoop_all_ws (m : Nat) :
    ∀ (paras : List (List Char)), (∀ p ∈ paras, filterNW p = []) →
      chunkLoop m paras [] = [] := by
  intro paras
  induction paras with
  | nil =>
    intro _
    rfl
  | cons p rest ih =>
    intro h
    unfold chunkLoop
    have hp : (trimJS p).isEmpty = true := by
      rw [trimJS_eq_nil_of_filterNW (h p (List.mem_cons_self p rest))]
      rfl
    rw [if_pos hp]
    exact ih (fun q hq => h q (List.mem_cons_of_mem p hq))

/-! ## Claim theorems: chunker -/

/-- C4: for every input and every positive `maxChars`, each emitted chunk
has length at most `maxChars`; whitespace-only input yields no chunks; and
an input that is a single trimmed paragraph of length exactly `maxChars`
comes back as that one unsplit chunk. -/
theorem chunkText_bounded (text : List Char) (maxChars : Nat) (hm : 0 < maxChars) :
    (∀ ch ∈ chunkText text maxChars, ch.length ≤ maxChars)
    ∧ ((∀ c ∈ text, isSpaceJS c = true) → chunkText text maxChars = [])
    ∧ (splitParas text = [text] → trimJS text = text → text.length = maxChars →
        chunkText text maxChars = [text]) := by
  refine ⟨?_, ?_, ?_⟩
  · intro ch hch
    unfold chunkText at hch
    split at hch
    · simp at hch
    · exact chunkLoop_mem_length maxChars (splitParas text) [] (Nat.zero_le maxChars) ch hch
  · intro hws
    unfold chunkText
    split
    · rfl
    · apply chunkLoop_all_ws
      intro p hp
      have hfl : filterNW ((splitParas text).flatten) = [] := by
        rw [splitParas_flatten]
        exact filterNW_eq_nil_of_ws hws
      apply filterNW_eq_nil_of_ws
      intro c hc
      exact ws_of_filterNW_eq_nil hfl c (List.mem_flatten.mpr ⟨p, hp, hc⟩)
  · intro hsp htr hlen
    have hne : text ≠ [] := by
      intro h
      rw [h] at hlen
      simp at hlen
      omega
    have hemp : text.isEmpty = false := by
      cases he : text.isEmpty
      · rfl
      · exact absurd (List.isEmpty_iff.mp he) hne
    unfold chunkText
    rw [hemp]
    show chunkLoop maxChars (splitParas text) [] = [text]
    rw [hsp]
    show (if (trimJS text).isEmpty = true then chunkLoop maxChars [] []
      else if (([] : List Char) ++ nl2 ++ trimJS text).length ≤ maxChars then
        chunkLoop maxChars [] (if ([] : List Char).isEmpty = true then trimJS text
          else [] ++ nl2 ++ trimJS text)
      else (if ([] : List Char).isEmpty = true then [] else [[]]) ++
        (if (trimJS text).length ≤ maxChars then chunkLoop maxChars [] (trimJS text)
         else sliceSplit (trimJS text) maxChars ++ chunkLoop maxChars [] [])) = [text]
    rw [htr, hemp]
    have hcond : ¬ ((([] : List Char) ++ nl2 ++ text).length ≤ maxChars) := by
      have h2 : (([] : List Char) ++ nl2 ++ text).length = text.length + 2 := by
        simp [nl2]
      omega
    rw [if_neg hcond]
    rw [if_pos (show text.length ≤ maxChars by omega)]
    simp only [List.isEmpty_nil, if_pos rfl, List.nil_append]
    show chunkLoop maxChars [] text = [text]
    unfold chunkLoop
    rw [hemp]
    simp

/-- Concrete single-paragraph input of length exactly `maxChars = 2`,
witnessing all three parts of the chunker bound claim. -/
theorem chunkText_bounded_witness :
    (0 : Nat) < 2
    ∧ ((∀ ch ∈ chunkText "hi".toList 2, ch.length ≤ 2)
      ∧ ((∀ c ∈ "hi".toList, isSpaceJS c = true) → chunkText "hi".toList 2 = [])
      ∧ (splitParas "hi".toList = ["hi".toList] → trimJS "hi".toList = "hi".toList →
          ("hi".toList).length = 2 → chunkText "hi".toList 2 = ["hi".toList])) :=
  ⟨by decide, chunkText_bounded "hi".toList 2 (by decide)⟩

/-- C5: the concatenation of the chunks, in emission order, carries exactly
the non-whitespace characters of the input, in order (whitespace at
paragraph boundaries being the only content the chunker rewrites). -/
theorem chunkText_reconstructs (text : List Char) (maxChars : Nat) (hm : 0 < maxChars) :
    filterNW ((chunkText text maxChars).flatten) = filterNW text := by
  unfold chunkText
  split
  · rename_i h
    rw [List.isEmpty_iff.mp h]
    rfl
  · rw [chunkLoop_flatten maxChars hm, List.nil_append, splitParas_flatten]

theorem chunkText_reconstructs_witness :
    (0 : Nat) < 800
    ∧ filterNW ((chunkText "One para.\n\nTwo, again.".toList 800).flatten) =
        filterNW "One para.\n\nTwo, again.".toList :=
  ⟨by decide, chunkText_reconstructs "One para.\n\nTwo, again.".toList 800 (by decide)⟩

/-! ## Helper lemmas: retriever -/

theorem insertByScore_perm (c : SChunk) (l : List SChunk) :
    (insertByScore c l).Perm (c :: l) := by
  induction l with
  | nil => exact List.Perm.refl [c]
  | cons d rest ih =>
    unfold insertByScore
    split
    · exact List.Perm.refl _
    · exact (List.Perm.cons d ih).trans (List.Perm.swap c d rest)

theorem sortByScoreDesc_perm (l : List SChunk) : (sortByScoreDesc l).Perm l := by
  induction l with
  | nil => exact List.Perm.refl []
  | cons c rest ih =>
    show (insertByScore c (sortByScoreDesc rest)).Perm (c :: rest)
    exact (insertByScore_perm c (sortByScoreDesc rest)).trans (List.Perm.cons c ih)

theorem mem_insertByScore {x c : SChunk} {l : List SChunk}
    (h : x ∈ insertByScore c l) : x = c ∨ x ∈ l := by
  have := (insertByScore_perm c l).mem_iff.mp h
  simpa using this

theorem insertByScore_sorted {c : SChunk} {l : List SChunk}
    (h : l.Pairwise (fun a b => b.score ≤ a.score)) :
    (insertByScore c l).Pairwise (fun a b => b.score ≤ a.score) := by
  induction l with
  | nil => simp [insertByScore]
  | cons d rest ih =>
    unfold insertByScore
    split
    · rename_i hd
      refine List.pairwise_cons.mpr ⟨?_, h⟩
      intro x hx
      rcases List.mem_cons.mp hx with h1 | h1
      · subst h1
        exact hd
      · have := (List.pairwise_cons.mp h).1 x h1
        omega
    · rename_i hd
      have hrest := (List.pairwise_cons.mp h).2
      refine List.pairwise_cons.mpr ⟨?_, ih hrest⟩
      intro x hx
      rcases mem_insertByScore hx with h1 | h1
      · subst h1
        omega
      · exact (List.pairwise_cons.mp h).1 x h1

theorem sortByScoreDesc_sorted (l : List SChunk) :
    (sortByScoreDesc l).Pairwise (fun a b => b.score ≤ a.score) := by
  induction l with
  | nil => simp [sortByScoreDesc]
  | cons c rest ih => exact insertByScore_sorted ih

theorem insertByScore_filter_eq (c : SChunk) (l : List SChunk) (s : Nat) :
    (insertByScore c l).filter (fun x => x.score == s) =
      if c.score == s then c :: l.filter (fun x => x.score == s)
      else l.filter (fun x => x.score == s) := by
  induction l with
  | nil =>
    show [c].filter (fun x => x.score == s) = _
    rw [List.filter_cons]
  | cons d rest ih =>
    unfold insertByScore
    by_cases hd : d.score ≤ c.score
    · rw [if_pos hd]
      simp only [List.filter_cons]
    · rw [if_neg hd]
      simp only [List.filter_cons, ih]
      by_cases hcs : c.score = s
      · have hds : d.score ≠ s := by omega
        simp [hcs, hds]
      · simp [hcs]

theorem sortByScoreDesc_filter_eq (l : List SChunk) (s : Nat) :
    (sortByScoreDesc l).filter (fun x => x.score == s) =
      l.filter (fun x => x.score == s) := by
  induction l with
  | nil => rfl
  | cons c rest ih =>
    show (insertByScore c (sortByScoreDesc rest)).filter (fun x => x.score == s) = _
    rw [insertByScore_filter_eq, List.filter_cons, ih]

theorem mem_tagChunks {title : List Char} {c : TChunk} :
    ∀ {l : List (List Char)} {k : Nat}, c ∈ tagChunks title k l →
      ∃ i, l[i]? = some c.text ∧ c.chunkIndex = k + i + 1 ∧ c.noteTitle = title := by
  intro l
  induction l with
  | nil =>
    intro k h
    simp [tagChunks] at h
  | cons t rest ih =>
    intro k h
    rcases List.mem_cons.mp h with h1 | h1
    · subst h1
      exact ⟨0, by simp, rfl, rfl⟩
    · obtain ⟨i, hi, hidx, hti⟩ := ih h1
      refine ⟨i + 1, ?_, ?_, hti⟩
      · simpa using hi
      · omega

/-! ## Claim theorems: retriever -/

/-- C6: the chat handler's retrieval returns at most 5 scored chunks,
pairwise sorted non-increasing by score; the stable sort preserves, for
every score value, the original relative order of the tied chunks (note
order, then 1-based chunk index); each returned chunk arises from chunking
`title ++ blank line ++ content` of one of the notes with its 1-based index
and its query score; and zero notes (or zero chunks) yield the empty
selection rather than an error. -/
theorem retriever_top5_spec (query : List Char) (notes : List Note) :
    (topChunks query notes).length ≤ 5
    ∧ (topChunks query notes).Pairwise (fun a b => b.score ≤ a.score)
    ∧ (∀ s : Nat, (sortByScoreDesc (scoredChunks query notes)).filter (fun x => x.score == s)
        = (scoredChunks query notes).filter (fun x => x.score == s))
    ∧ (notes = [] → topChunks query notes = [])
    ∧ (allChunks notes = [] → topChunks query notes = [])
    ∧ ∀ c ∈ topChunks query notes, ∃ n ∈ notes, ∃ i,
        (chunkText (noteTitleOf n ++ nl2 ++ n.content) 800)[i]? = some c.text
        ∧ c.chunkIndex = i + 1 ∧ c.noteTitle = noteTitleOf n
        ∧ c.score = scoreChunk query c.text := by
  refine ⟨?_, ?_, fun s => sortByScoreDesc_filter_eq _ s, ?_, ?_, ?_⟩
  · unfold topChunks
    split
    · simp
    · exact List.length_take_le 5 _
  · unfold topChunks
    split
    · simp
    · exact (sortByScoreDesc_sorted _).sublist (List.take_sublist 5 _)
  · intro h
    subst h
    rfl
  · intro h
    unfold topChunks
    rw [h]
    rfl
  · intro c hc
    have hmem : c ∈ sortByScoreDesc (scoredChunks query notes) := by
      unfold topChunks at hc
      split at hc
      · simp at hc
      · exact List.mem_of_mem_take hc
    have hmem2 : c ∈ scoredChunks query notes :=
      (sortByScoreDesc_perm _).mem_iff.mp hmem
    obtain ⟨tc, htc, hceq⟩ := List.mem_map.mp hmem2
    have htc2 : ∃ n ∈ notes, tc ∈ noteChunks n := by
      unfold allChunks at htc
      obtain ⟨lc, hlc, htcin⟩ := List.mem_flatten.mp htc
      obtain ⟨n, hn, hlceq⟩ := List.mem_map.mp hlc
      exact ⟨n, hn, hlceq ▸ htcin⟩
    obtain ⟨n, hn, htcn⟩ := htc2
    obtain ⟨i, hi, hidx, hti⟩ := mem_tagChunks htcn
    refine ⟨n, hn, i, ?_, ?_, ?_, ?_⟩
    · rw [← hceq] at *
      exact hi
    · rw [← hceq]
      simpa using hidx
    · rw [← hceq]
      exact hti
    · rw [← hceq]

/-- C10: the retrieval applies no minimum-score threshold: whenever the
notes chunk into at least one chunk, exactly `min(number of chunks, 5)`
chunks are returned, whatever their scores (zero-relevance chunks
included). -/
theorem retriever_no_min_score (query : List Char) (notes : List Note)
    (h : 0 < (allChunks notes).length) :
    (topChunks query notes).length = min (allChunks notes).length 5 := by
  unfold topChunks
  rw [if_neg (by
    intro he
    rw [List.isEmpty_iff.mp he] at h
    simp at h)]
  rw [List.length_take]
  have h1 : (sortByScoreDesc (scoredChunks query notes)).length
      = (scoredChunks query notes).length := (sortByScoreDesc_perm _).length_eq
  have h2 : (scoredChunks query notes).length = (allChunks notes).length := by
    unfold scoredChunks
    rw [List.length_map]
  rw [h1, h2]
  omega

/-- A one-note folder whose single chunk scores 0 against the query: the
chunk is returned anyway, so the selection has exactly min(1, 5) = 1
element. -/
theorem retriever_no_min_score_witness :
    0 < (allChunks [⟨"t".toList, "hello world".toList⟩]).length
    ∧ (topChunks "zzz".toList [⟨"t".toList, "hello world".toList⟩]).length
        = min (allChunks [⟨"t".toList, "hello world".toList⟩]).length 5
    ∧ (scoredChunks "zzz".toList [⟨"t".toList, "hello world".toList⟩]).all
        (fun c => c.score == 0) = true :=
  ⟨by decide,
   retriever_no_min_score "zzz".toList [⟨"t".toList, "hello world".toList⟩] (by decide),
   by decide⟩

/-! ## Helper lemmas: study generator -/

theorem buildMcqs_length : ∀ (l : List TChunk) (k : Nat), (buildMcqs k l).length = l.length := by
  intro l
  induction l with
  | nil => intro k; rfl
  | cons c rest ih =>
    intro k
    show (mkMcq k c :: buildMcqs (k + 1) rest).length = _
    rw [List.length_cons, ih, List.length_cons]

theorem buildSaqs_length : ∀ (l : List TChunk) (k : Nat), (buildSaqs k l).length = l.length := by
  intro l
  induction l with
  | nil => intro k; rfl
  | cons c rest ih =>
    intro k
    show (mkSaq k c :: buildSaqs (k + 1) rest).length = _
    rw [List.length_cons, ih, List.length_cons]

theorem buildMcqs_getElem? :
    ∀ (l : List TChunk) (k i : Nat), (buildMcqs k l)[i]? = (l[i]?).map (fun c => mkMcq (k + i) c) := by
  intro l
  induction l with
  | nil => intro k i; rfl
  | cons c rest ih =>
    intro k i
    cases i with
    | zero =>
      show (mkMcq k c :: buildMcqs (k + 1) rest)[0]? = _
      simp
    | succ i =>
      show (mkMcq k c :: buildMcqs (k + 1) rest)[i + 1]? = _
      rw [List.getElem?_cons_succ, ih, List.getElem?_cons_succ]
      have hk : k + 1 + i = k + (i + 1) := by omega
      rw [hk]

theorem buildSaqs_getElem? :
    ∀ (l : List TChunk) (k i : Nat), (buildSaqs k l)[i]? = (l[i]?).map (fun c => mkSaq (k + i) c) := by
  intro l
  induction l with
  | nil => intro k i; rfl
  | cons c rest ih =>
    intro k i
    cases i with
    | zero =>
      show (mkSaq k c :: buildSaqs (k + 1) rest)[0]? = _
      simp
    | succ i =>
      show (mkSaq k c :: buildSaqs (k + 1) rest)[i + 1]? = _
      rw [List.getElem?_cons_succ, ih, List.getElem?_cons_succ]
      have hk : k + 1 + i = k + (i + 1) := by omega
      rw [hk]

/-! ## Claim theorems: study generator -/

/-- C9 counterexample: a folder with one (small) note yields a single chunk,
so the templated generator emits 1 MCQ and 0 short-answer questions, not
exactly 5 and 3. -/
theorem studyTemplated_not_always_5_and_3 :
    ¬ ((studyTemplated [⟨"A".toList, "B".toList⟩]).mcqs.length = 5
      ∧ (studyTemplated [⟨"A".toList, "B".toList⟩]).shortAnswers.length = 3) := by
  decide

/-- C9 amended: the templated generator produces `min(k, 5)` MCQs from the
first chunks and `min(k - 5, 3)` short-answer questions from chunks 6-8,
where `k` is the number of pooled chunks (at most the first 20); exactly 5
and 3 whenever the notes yield at least 8 chunks.  MCQ number `i` is built
from pool chunk `i` and always marks option A correct; each item carries
exactly one citation naming its source note title and 1-based chunk index
(short-answer question `i` citing pool chunk `5 + i`). -/
theorem studyTemplated_spec (notes : List Note) :
    (studyTemplated notes).mcqs.length = min (poolChunks notes).length 5
    ∧ (studyTemplated notes).shortAnswers.length = min ((poolChunks notes).length - 5) 3
    ∧ (8 ≤ (poolChunks notes).length →
        (studyTemplated notes).mcqs.length = 5
        ∧ (studyTemplated notes).shortAnswers.length = 3)
    ∧ (∀ (i : Nat) (m : Mcq), (studyTemplated notes).mcqs[i]? = some m →
        ∃ c : TChunk, (poolChunks notes)[i]? = some c
          ∧ m.correctOption = "A".toList
          ∧ m.citations = [⟨c.noteTitle, "chunk ".toList ++ natStr c.chunkIndex⟩])
    ∧ (∀ (i : Nat) (sa : Saq), (studyTemplated notes).shortAnswers[i]? = some sa →
        ∃ c : TChunk, (poolChunks notes)[5 + i]? = some c
          ∧ sa.citations = [⟨c.noteTitle, "chunk ".toList ++ natStr c.chunkIndex⟩]) := by
  have hlen1 : (studyTemplated notes).mcqs.length = min (poolChunks notes).length 5 := by
    unfold studyTemplated
    split
    · rename_i h
      have : notes = [] := List.isEmpty_iff.mp h
      subst this
      rfl
    · split
      · rename_i h
        show (0 : Nat) = min (poolChunks notes).length 5
        unfold poolChunks
        rw [List.isEmpty_iff.mp h]
        rfl
      · show (buildMcqs 0 ((poolChunks notes).take 5)).length = _
        rw [buildMcqs_length, List.length_take]
        omega
  have hlen2 : (studyTemplated notes).shortAnswers.length
      = min ((poolChunks notes).length - 5) 3 := by
    unfold studyTemplated
    split
    · rename_i h
      have : notes = [] := List.isEmpty_iff.mp h
      subst this
      rfl
    · split
      · rename_i h
        show (0 : Nat) = min ((poolChunks notes).length - 5) 3
        unfold poolChunks
        rw [List.isEmpty_iff.mp h]
        rfl
      · show (buildSaqs 0 (((poolChunks notes).drop 5).take 3)).length = _
        rw [buildSaqs_length, List.length_take, List.length_drop]
        omega
  refine ⟨hlen1, hlen2, ?_, ?_, ?_⟩
  · intro h8
    constructor
    · rw [hlen1]
      omega
    · rw [hlen2]
      omega
  · intro i m hm
    have hget : (studyTemplated notes).mcqs[i]? = ((poolChunks notes).take 5)[i]?.map
        (fun c => mkMcq i c) := by
      unfold studyTemplated
      split
      · rename_i h
        have : notes = [] := List.isEmpty_iff.mp h
        subst this
        rfl
      · split
        · rename_i h
          show (([] : List Mcq))[i]? = _
          unfold poolChunks
          rw [List.isEmpty_iff.mp h]
          simp
        · show (buildMcqs 0 ((poolChunks notes).take 5))[i]? = _
          rw [buildMcqs_getElem?]
          simp
    rw [hget] at hm
    cases hc : ((poolChunks notes).take 5)[i]? with
    | none =>
      rw [hc] at hm
      simp at hm
    | some c =>
      rw [hc] at hm
      have hm2 : m = mkMcq i c := (Option.some.inj hm).symm
      subst hm2
      refine ⟨c, ?_, rfl, rfl⟩
      have hi5 : i < 5 := by
        by_contra hn
        rw [List.getElem?_take_eq_none (by omega)] at hc
        exact absurd hc (by simp)
      rw [List.getElem?_take] at hc
      rw [if_pos hi5] at hc
      exact hc
  · intro i sa hsa
    have hget : (studyTemplated notes).shortAnswers[i]? =
        (((poolChunks notes).drop 5).take 3)[i]?.map (fun c => mkSaq i c) := by
      unfold studyTemplated
      split
      · rename_i h
        have : notes = [] := List.isEmpty_iff.mp h
        subst this
        rfl
      · split
        · rename_i h
          show (([] : List Saq))[i]? = _
          unfold poolChunks
          rw [List.isEmpty_iff.mp h]
          simp
        · show (buildSaqs 0 (((poolChunks notes).drop 5).take 3))[i]? = _
          rw [buildSaqs_getElem?]
          simp
    rw [hget] at hsa
    cases hc : (((poolChunks notes).drop 5).take 3)[i]? with
    | none =>
      rw [hc] at hsa
      simp at hsa
    | some c =>
      rw [hc] at hsa
      have hsa2 : sa = mkSaq i c := (Option.some.inj hsa).symm
      subst hsa2
      refine ⟨c, ?_, rfl⟩
      have hi3 : i < 3 := by
        by_contra hn
        rw [List.getElem?_take_eq_none (by omega)] at hc
        exact absurd hc (by simp)
      rw [List.getElem?_take, if_pos hi3, List.getElem?_drop] at hc
      exact hc
